import Mathlib

/-!
Verification of the node store, iterator family, node handle and container
contract of `adt::binary_tree` (src/binary_tree.hpp).

The C++ code is a raw-pointer binary tree.  We embed it shallowly:
addresses are natural numbers, the heap is an association list from
addresses to node records, and each member function becomes a Lean
function from the heap and its arguments to the updated heap and its
return value.  Out-of-heap pointer accesses (undefined behaviour in the
C++ source) are given harmless default results; every theorem below
supplies validity hypotheses that keep those defaults out of play.
-/

/-- A tree node, mirroring `binary_tree::_Node` (src/binary_tree.hpp:41-118):
`value` is the stored element, `parent`, `left`, `right` are raw pointers
(modelled as optional addresses) and `height` an unsigned counter. -/
structure Node where
  value : Int
  parent : Option Nat
  left : Option Nat
  right : Option Nat
  height : Nat
  deriving DecidableEq

/-- The heap: an association list from addresses to live nodes. -/
abbrev Heap := List (Nat × Node)

/-- Read the node stored at address `a`, if `a` is live. -/
def hLookup : Heap → Nat → Option Node
  | [], _ => none
  | (k, v) :: rest, a => if k = a then some v else hLookup rest a

/-- Overwrite the node stored at a live address `a` (no-op when dead). -/
def hUpdate : Heap → Nat → Node → Heap
  | [], _, _ => []
  | (k, v) :: rest, a, nd => if k = a then (a, nd) :: rest else (k, v) :: hUpdate rest a nd

/-- Deallocate address `a`. -/
def hRemove : Heap → Nat → Heap
  | [], _ => []
  | (k, v) :: rest, a => if k = a then hRemove rest a else (k, v) :: hRemove rest a

/-- The height stored at a child pointer, as read by `this->left->height` /
`this->right->height` in the linking constructor (src/binary_tree.hpp:67-77);
the dead-address default 0 is never reached under the theorems' hypotheses. -/
def childHeight (h : Heap) (a : Nat) : Nat :=
  match hLookup h a with
  | some nd => nd.height
  | none => 0

/-- The height computed by the linking constructor `_Node::_Node(value,
parent, left, right, height)` (src/binary_tree.hpp:62-82): 1 plus the max of
both children's heights when both exist, 1 plus the sole child's height when
one exists, 0 when none exists.  The `height` argument is overwritten in
every branch. -/
def linkHeight (h : Heap) (l r : Option Nat) : Nat :=
  match l, r with
  | some la, some ra => 1 + max (childHeight h la) (childHeight h ra)
  | some la, none => 1 + childHeight h la
  | none, some ra => 1 + childHeight h ra
  | none, none => 0

/-- `binary_tree::_construct_node(value, parent, left, right, height)`
(src/binary_tree.hpp:145-155) followed by the linking constructor body
(src/binary_tree.hpp:60-100): allocate a node at the fresh address `addr`,
store the given fields with the recomputed height, then, when `parent` is a
live address, link the new node as the parent's left child if `value` is
less than the parent's value, as its right child if greater, and leave the
parent untouched if equal. -/
def constructNode (h : Heap) (addr : Nat) (value : Int)
    (parent l r : Option Nat) (height : Nat) : Heap :=
  let nd : Node :=
    { value := value, parent := parent, left := l, right := r
      height := linkHeight h l r }
  let h1 : Heap := (addr, nd) :: h
  match parent with
  | none => h1
  | some p =>
    match hLookup h1 p with
    | none => h1
    | some pn =>
      if value < pn.value then hUpdate h1 p { pn with left := some addr }
      else if pn.value < value then hUpdate h1 p { pn with right := some addr }
      else h1

/-- `binary_tree::_destroy_node(node)` (src/binary_tree.hpp:157-188):
null argument is a no-op returning null; a parentless node is deallocated
and null is returned; otherwise the parent's matching child link (left
checked first) is severed, the node is deallocated, and the saved parent
pointer is returned. -/
def destroyNode (h : Heap) (node : Option Nat) : Heap × Option Nat :=
  match node with
  | none => (h, none)
  | some a =>
    match hLookup h a with
    | none => (h, none)
    | some nd =>
      match nd.parent with
      | none => (hRemove h a, none)
      | some p =>
        let h1 : Heap :=
          match hLookup h p with
          | none => h
          | some pn =>
            if pn.left = some a then hUpdate h p { pn with left := none }
            else if pn.right = some a then hUpdate h p { pn with right := none }
            else h
        (hRemove h1 a, some p)

/- Basic heap lemmas. -/

theorem hLookup_cons (k : Nat) (v : Node) (h : Heap) (a : Nat) :
    hLookup ((k, v) :: h) a = if k = a then some v else hLookup h a := rfl

theorem hLookup_hUpdate_self (h : Heap) (a : Nat) (nd x : Node)
    (hx : hLookup h a = some x) : hLookup (hUpdate h a nd) a = some nd := by
  induction h with
  | nil => simp [hLookup] at hx
  | cons kv rest ih =>
    obtain ⟨k, v⟩ := kv
    by_cases hk : k = a
    · subst hk
      simp [hUpdate, hLookup]
    · simp [hUpdate, hLookup, hk] at hx ⊢
      exact ih hx

theorem hLookup_hUpdate_other (h : Heap) (a b : Nat) (nd : Node)
    (hab : b ≠ a) : hLookup (hUpdate h a nd) b = hLookup h b := by
  induction h with
  | nil => simp [hUpdate]
  | cons kv rest ih =>
    obtain ⟨k, v⟩ := kv
    by_cases hk : k = a
    · subst hk
      simp [hUpdate, hLookup, Ne.symm hab]
    · simp [hUpdate, hLookup, hk]
      by_cases hkb : k = b
      · simp [hkb]
      · simp [hkb]
        exact ih

theorem hLookup_hRemove_self (h : Heap) (a : Nat) :
    hLookup (hRemove h a) a = none := by
  induction h with
  | nil => simp [hRemove, hLookup]
  | cons kv rest ih =>
    obtain ⟨k, v⟩ := kv
    by_cases hk : k = a
    · subst hk
      simp [hRemove, ih]
    · simp [hRemove, hLookup, hk, ih]

theorem hLookup_hRemove_other (h : Heap) (a b : Nat) (hab : b ≠ a) :
    hLookup (hRemove h a) b = hLookup h b := by
  induction h with
  | nil => simp [hRemove]
  | cons kv rest ih =>
    obtain ⟨k, v⟩ := kv
    by_cases hk : k = a
    · subst hk
      simp [hRemove, hLookup, Ne.symm hab, ih]
    · simp [hRemove, hLookup, hk]
      by_cases hkb : k = b
      · simp [hkb]
      · simp [hkb, ih]

/-- The node stored at the freshly allocated address after the linking
constructor runs: all given fields, with the height recomputed by
`linkHeight`.  The parent-linking step never overwrites this entry: the
parent is a different address, or, in the degenerate self-parent case, the
value comparison is reflexive and neither branch fires. -/
theorem hLookup_constructNode_self (h : Heap) (addr : Nat) (value : Int)
    (parent l r : Option Nat) (height : Nat) :
    hLookup (constructNode h addr value parent l r height) addr
      = some ⟨value, parent, l, r, linkHeight h l r⟩ := by
  cases parent with
  | none => simp [constructNode, hLookup_cons]
  | some p =>
    simp only [constructNode]
    by_cases hpa : p = addr
    · subst hpa
      simp [hLookup_cons]
    · cases hl : hLookup ((addr, ⟨value, some p, l, r, linkHeight h l r⟩) :: h) p with
      | none => simp [hl, hLookup_cons]
      | some pn =>
        simp only [hl]
        by_cases h1 : value < pn.value
        · simp only [h1, if_true]
          rw [hLookup_hUpdate_other _ _ _ _ (fun hh => hpa hh.symm)]
          simp [hLookup_cons]
        · by_cases h2 : pn.value < value
          · simp only [h1, h2, if_false, if_true]
            rw [hLookup_hUpdate_other _ _ _ _ (fun hh => hpa hh.symm)]
            simp [hLookup_cons]
          · simp [h1, h2, hLookup_cons]

/-- C1: a linking-constructor call with a live non-null parent and a fresh
address links the new node as the parent's left child when the new value is
less than the parent's value, as its right child when greater, and leaves
the parent's record (in particular both child links) untouched when the
values are equal (src/binary_tree.hpp:84-99). -/
theorem constructNode_parent_link_rule (h : Heap) (addr : Nat) (value : Int)
    (l r : Option Nat) (height : Nat) (p : Nat) (pn : Node)
    (hfresh : hLookup h addr = none) (hp : hLookup h p = some pn) :
    (value < pn.value →
      hLookup (constructNode h addr value (some p) l r height) p
        = some { pn with left := some addr }) ∧
    (pn.value < value →
      hLookup (constructNode h addr value (some p) l r height) p
        = some { pn with right := some addr }) ∧
    (value = pn.value →
      hLookup (constructNode h addr value (some p) l r height) p = some pn) := by
  have hne : addr ≠ p := by
    intro he
    rw [he, hp] at hfresh
    cases hfresh
  have h1p : hLookup ((addr, ⟨value, some p, l, r, linkHeight h l r⟩) :: h) p
      = some pn := by
    simp [hLookup_cons, hne, hp]
  refine ⟨?_, ?_, ?_⟩
  · intro hlt
    simp only [constructNode, h1p, hlt, if_true]
    exact hLookup_hUpdate_self _ _ _ _ h1p
  · intro hgt
    have hnlt : ¬ value < pn.value := not_lt_of_gt hgt
    simp only [constructNode, h1p, hnlt, hgt, if_false, if_true]
    exact hLookup_hUpdate_self _ _ _ _ h1p
  · intro heq
    have hnlt : ¬ value < pn.value := by rw [heq]; exact lt_irrefl _
    have hngt : ¬ pn.value < value := by rw [heq]; exact lt_irrefl _
    simp only [constructNode, h1p, hnlt, hngt, if_false]

/-- Witness for `constructNode_parent_link_rule`: inserting value 3 under a
live parent holding 5 at address 0 links address 1 as the parent's left
child. -/
theorem constructNode_parent_link_rule_witness :
    hLookup (constructNode [(0, ⟨5, none, none, none, 0⟩)] 1 3 (some 0) none none 0) 0
      = some ⟨5, none, some 1, none, 0⟩ :=
  (constructNode_parent_link_rule [(0, ⟨5, none, none, none, 0⟩)] 1 3 none none 0 0
    ⟨5, none, none, none, 0⟩ rfl rfl).1 (by decide)

/-- C2: every node built by the linking constructor stores, regardless of
the height argument passed, height 0 when both children are null, 1 plus the
sole live child's stored height when exactly one child is non-null, and
1 plus the maximum of the two live children's stored heights when both are
non-null (src/binary_tree.hpp:62-82). -/
theorem constructNode_height_rule (h : Heap) (addr : Nat) (value : Int)
    (parent : Option Nat) (height : Nat) :
    (hLookup (constructNode h addr value parent none none height) addr
       = some ⟨value, parent, none, none, 0⟩) ∧
    (∀ la ln, hLookup h la = some ln →
      hLookup (constructNode h addr value parent (some la) none height) addr
        = some ⟨value, parent, some la, none, 1 + ln.height⟩) ∧
    (∀ ra rn, hLookup h ra = some rn →
      hLookup (constructNode h addr value parent none (some ra) height) addr
        = some ⟨value, parent, none, some ra, 1 + rn.height⟩) ∧
    (∀ la ln ra rn, hLookup h la = some ln → hLookup h ra = some rn →
      hLookup (constructNode h addr value parent (some la) (some ra) height) addr
        = some ⟨value, parent, some la, some ra, 1 + max ln.height rn.height⟩) := by
  refine ⟨?_, ?_, ?_, ?_⟩
  · rw [hLookup_constructNode_self]
    simp [linkHeight]
  · intro la ln hla
    rw [hLookup_constructNode_self]
    simp [linkHeight, childHeight, hla]
  · intro ra rn hra
    rw [hLookup_constructNode_self]
    simp [linkHeight, childHeight, hra]
  · intro la ln ra rn hla hra
    rw [hLookup_constructNode_self]
    simp [linkHeight, childHeight, hla, hra]

/-- Witness for `constructNode_height_rule`: building a node over a sole
left child of height 4 stores height 5, even though 77 was passed as the
height argument. -/
theorem constructNode_height_rule_witness :
    hLookup (constructNode [(0, ⟨2, none, none, none, 4⟩)] 1 9 none (some 0) none 77) 1
      = some ⟨9, none, some 0, none, 5⟩ :=
  (constructNode_height_rule [(0, ⟨2, none, none, none, 4⟩)] 1 9 none 77).2.1 0
    ⟨2, none, none, none, 4⟩ rfl

/-- C3: destroying a live non-root node whose parent's matching child link
points at it nulls exactly that link (left checked first; by the node
invariant of the data model at most one link matches, which the
`pn.left ≠ some a` hypothesis of the right-child case records), leaves the
parent's other fields unchanged, deallocates the node, leaves every other
address untouched, and returns the parent; a null argument is a no-op
returning null (src/binary_tree.hpp:157-188). -/
theorem destroyNode_severs_matching_link (h : Heap) (a p : Nat) (nd pn : Node)
    (hnd : hLookup h a = some nd) (hpar : nd.parent = some p)
    (hpn : hLookup h p = some pn) (hap : a ≠ p) :
    (destroyNode h none = (h, none)) ∧
    (pn.left = some a →
      (destroyNode h (some a)).2 = some p ∧
      hLookup (destroyNode h (some a)).1 a = none ∧
      hLookup (destroyNode h (some a)).1 p = some { pn with left := none } ∧
      (∀ b, b ≠ a → b ≠ p → hLookup (destroyNode h (some a)).1 b = hLookup h b)) ∧
    (pn.left ≠ some a → pn.right = some a →
      (destroyNode h (some a)).2 = some p ∧
      hLookup (destroyNode h (some a)).1 a = none ∧
      hLookup (destroyNode h (some a)).1 p = some { pn with right := none } ∧
      (∀ b, b ≠ a → b ≠ p → hLookup (destroyNode h (some a)).1 b = hLookup h b)) := by
  refine ⟨rfl, ?_, ?_⟩
  · intro hl
    have hred : destroyNode h (some a)
        = (hRemove (hUpdate h p { pn with left := none }) a, some p) := by
      simp only [destroyNode, hnd, hpar, hpn, hl, if_true]
    rw [hred]
    refine ⟨rfl, hLookup_hRemove_self _ _, ?_, ?_⟩
    · rw [hLookup_hRemove_other _ _ _ (Ne.symm hap)]
      exact hLookup_hUpdate_self _ _ _ _ hpn
    · intro b hba hbp
      rw [hLookup_hRemove_other _ _ _ hba, hLookup_hUpdate_other _ _ _ _ hbp]
  · intro hnl hr
    have hred : destroyNode h (some a)
        = (hRemove (hUpdate h p { pn with right := none }) a, some p) := by
      simp only [destroyNode, hnd, hpar, hpn, hnl, hr, if_true, if_false,
        if_neg hnl]
    rw [hred]
    refine ⟨rfl, hLookup_hRemove_self _ _, ?_, ?_⟩
    · rw [hLookup_hRemove_other _ _ _ (Ne.symm hap)]
      exact hLookup_hUpdate_self _ _ _ _ hpn
    · intro b hba hbp
      rw [hLookup_hRemove_other _ _ _ hba, hLookup_hUpdate_other _ _ _ _ hbp]

/-- Witness for `destroyNode_severs_matching_link`: destroying left child 1
of parent 0 nulls the parent's left link and keeps its right link to 2. -/
theorem destroyNode_severs_matching_link_witness :
    hLookup (destroyNode
        [(0, ⟨5, none, some 1, some 2, 1⟩),
         (1, ⟨3, some 0, none, none, 0⟩),
         (2, ⟨8, some 0, none, none, 0⟩)] (some 1)).1 0
      = some ⟨5, none, none, some 2, 1⟩ :=
  ((destroyNode_severs_matching_link
      [(0, ⟨5, none, some 1, some 2, 1⟩),
       (1, ⟨3, some 0, none, none, 0⟩),
       (2, ⟨8, some 0, none, none, 0⟩)] 1 0
      ⟨3, some 0, none, none, 0⟩ ⟨5, none, some 1, some 2, 1⟩
      rfl rfl rfl (by decide)).2.1 rfl).2.2.1

/-- C10: destroying a live non-root node at which neither of the parent's
child links points leaves the parent's record (both child links included)
unchanged, still deallocates the node, leaves every other address
untouched, and returns the node's stored parent pointer
(src/binary_tree.hpp:174-187). -/
theorem destroyNode_unlinked_child (h : Heap) (a p : Nat) (nd pn : Node)
    (hnd : hLookup h a = some nd) (hpar : nd.parent = some p)
    (hpn : hLookup h p = some pn) (hap : a ≠ p)
    (hnl : pn.left ≠ some a) (hnr : pn.right ≠ some a) :
    (destroyNode h (some a)).2 = some p ∧
    hLookup (destroyNode h (some a)).1 a = none ∧
    hLookup (destroyNode h (some a)).1 p = some pn ∧
    (∀ b, b ≠ a → hLookup (destroyNode h (some a)).1 b = hLookup h b) := by
  have hred : destroyNode h (some a) = (hRemove h a, some p) := by
    simp only [destroyNode, hnd, hpar, hpn, if_neg hnl, if_neg hnr]
  rw [hred]
  refine ⟨rfl, hLookup_hRemove_self _ _, ?_, ?_⟩
  · rw [hLookup_hRemove_other _ _ _ (Ne.symm hap)]
    exact hpn
  · intro b hba
    exact hLookup_hRemove_other _ _ _ hba

/-- Witness for `destroyNode_unlinked_child`: node 1 names 0 as parent but 0
has no child links; destroying 1 frees it, returns 0, and leaves 0's record
unchanged. -/
theorem destroyNode_unlinked_child_witness :
    hLookup (destroyNode
        [(0, ⟨5, none, none, none, 0⟩), (1, ⟨3, some 0, none, none, 0⟩)]
        (some 1)).1 0
      = some ⟨5, none, none, none, 0⟩ :=
  (destroyNode_unlinked_child
      [(0, ⟨5, none, none, none, 0⟩), (1, ⟨3, some 0, none, none, 0⟩)] 1 0
      ⟨3, some 0, none, none, 0⟩ ⟨5, none, none, none, 0⟩
      rfl rfl rfl (by decide) (by decide) (by decide)).2.2.1

/-- The members of a `binary_tree` object (src/binary_tree.hpp:127-134):
the `root` pointer and the `sz` counter, together with the ambient heap the
pointers refer to.  The two allocator members are stateless and carry no
data. -/
structure TreeState where
  heap : Heap
  root : Option Nat
  sz : Nat
  deriving DecidableEq

/-- `binary_tree::_construct_node` called on a tree object: only the heap
changes; the method never touches `root` or `sz`
(src/binary_tree.hpp:145-155). -/
def treeConstructNode (t : TreeState) (addr : Nat) (value : Int)
    (parent l r : Option Nat) (height : Nat) : TreeState :=
  { t with heap := constructNode t.heap addr value parent l r height }

/-- `binary_tree::_destroy_node` called on a tree object: only the heap
changes and the parent pointer is returned; the method never touches `root`
or `sz` (src/binary_tree.hpp:157-188). -/
def treeDestroyNode (t : TreeState) (node : Option Nat) : TreeState × Option Nat :=
  (⟨(destroyNode t.heap node).1, t.root, t.sz⟩, (destroyNode t.heap node).2)

/-- One protected node-store operation of the base class. -/
inductive TreeOp where
  | construct (addr : Nat) (value : Int) (parent l r : Option Nat) (height : Nat)
  | destroy (node : Option Nat)
  deriving DecidableEq

/-- Apply one node-store operation to a tree object. -/
def applyOp (t : TreeState) : TreeOp → TreeState
  | TreeOp.construct addr value parent l r height =>
      treeConstructNode t addr value parent l r height
  | TreeOp.destroy node => (treeDestroyNode t node).1

/-- Apply a sequence of node-store operations, first to last. -/
def applyOps (t : TreeState) (ops : List TreeOp) : TreeState :=
  List.foldl applyOp t ops

/-- Fuel-bounded count of the nodes reachable from a pointer by following
`left`/`right` links; exact on any acyclic heap once the fuel exceeds the
tree depth. -/
def countReachable (h : Heap) : Nat → Option Nat → Nat
  | _, none => 0
  | 0, some _ => 0
  | Nat.succ fuel, some a =>
    match hLookup h a with
    | none => 0
    | some nd => 1 + countReachable h fuel nd.left + countReachable h fuel nd.right

/-- C4 counterexample: a tree whose heap holds exactly its root node (value
5 at address 0, sz 1).  `_destroy_node` on that sole root node deallocates
it but does not modify the tree's `root` member, so the tree is NOT left
with `root == null`, contrary to the claim. -/
theorem destroyNode_root_keeps_root_member :
    (treeDestroyNode ⟨[(0, ⟨5, none, none, none, 0⟩)], some 0, 1⟩ (some 0)).1.root
      ≠ none := by decide

/-- C4 amended: `_destroy_node` on a live parentless (root) node
deallocates it and returns null while leaving the tree's `root` member
unchanged; the tree has `root == null` only after the caller assigns the
returned null to `root` (src/binary_tree.hpp:162-168). -/
theorem destroyNode_root_returns_null (t : TreeState) (a : Nat) (nd : Node)
    (hnd : hLookup t.heap a = some nd) (hroot : nd.parent = none) :
    (treeDestroyNode t (some a)).2 = none ∧
    hLookup (treeDestroyNode t (some a)).1.heap a = none ∧
    (treeDestroyNode t (some a)).1.root = t.root ∧
    (TreeState.mk (treeDestroyNode t (some a)).1.heap
      (treeDestroyNode t (some a)).2 (treeDestroyNode t (some a)).1.sz).root
      = none := by
  have hred : destroyNode t.heap (some a) = (hRemove t.heap a, none) := by
    simp only [destroyNode, hnd, hroot]
  refine ⟨?_, ?_, ?_, ?_⟩
  · simp only [treeDestroyNode, hred]
  · simp only [treeDestroyNode, hred]
    exact hLookup_hRemove_self _ _
  · simp only [treeDestroyNode]
  · simp only [treeDestroyNode, hred]

/-- Witness for `destroyNode_root_returns_null`: destroying the sole root
node (value 5 at address 0) returns null. -/
theorem destroyNode_root_returns_null_witness :
    (treeDestroyNode ⟨[(0, ⟨5, none, none, none, 0⟩)], some 0, 1⟩ (some 0)).2
      = none :=
  (destroyNode_root_returns_null ⟨[(0, ⟨5, none, none, none, 0⟩)], some 0, 1⟩ 0
    ⟨5, none, none, none, 0⟩ rfl rfl).1

/-- C5 counterexample: start from a size-consistent tree (root node of
value 5 at address 0, sz 1, one reachable node) and perform a single
linking `_construct_node` of value 3 under the root.  Two nodes are now
reachable from `root`, but `size()` still reports 1: the protected
node-store primitives do not maintain the size counter. -/
theorem sizeNotMaintainedByNodeOps :
    (countReachable (⟨[(0, ⟨5, none, none, none, 0⟩)], some 0, 1⟩ : TreeState).heap 5
        (⟨[(0, ⟨5, none, none, none, 0⟩)], some 0, 1⟩ : TreeState).root
      = (⟨[(0, ⟨5, none, none, none, 0⟩)], some 0, 1⟩ : TreeState).sz) ∧
    (countReachable
        (applyOps ⟨[(0, ⟨5, none, none, none, 0⟩)], some 0, 1⟩
          [TreeOp.construct 1 3 (some 0) none none 0]).heap 5
        (applyOps ⟨[(0, ⟨5, none, none, none, 0⟩)], some 0, 1⟩
          [TreeOp.construct 1 3 (some 0) none none 0]).root
      ≠ (applyOps ⟨[(0, ⟨5, none, none, none, 0⟩)], some 0, 1⟩
          [TreeOp.construct 1 3 (some 0) none none 0]).sz) := by decide

/-- C5 amended: the protected node-store primitives `_construct_node` and
`_destroy_node` never modify `sz` (or `root`), so after any sequence of
them `size()` still reports the initial value; keeping `size()` equal to
the number of nodes reachable from `root` is the concrete subclass's
responsibility. -/
theorem applyOps_keeps_sz_and_root (t : TreeState) (ops : List TreeOp) :
    (applyOps t ops).sz = t.sz ∧ (applyOps t ops).root = t.root := by
  induction ops generalizing t with
  | nil => exact ⟨rfl, rfl⟩
  | cons op rest ih =>
    have hop : (applyOp t op).sz = t.sz ∧ (applyOp t op).root = t.root := by
      cases op with
      | construct addr value parent l r height =>
        exact ⟨rfl, rfl⟩
      | destroy node => exact ⟨rfl, rfl⟩
    have := ih (applyOp t op)
    simp only [applyOps, List.foldl] at this ⊢
    exact ⟨this.1.trans hop.1, this.2.trans hop.2⟩

/-- `const_iterator::operator*` (src/binary_tree.hpp:256-261): throws
`std::runtime_error("segmentation fault")` when the wrapped position is
null, otherwise returns the pointed-to node's value.  A dangling non-null
position (undefined behaviour in C++) is modelled as the same error. -/
def constIterDeref (h : Heap) (node : Option Nat) : Except String Int :=
  match node with
  | none => Except.error "segmentation fault"
  | some a =>
    match hLookup h a with
    | none => Except.error "segmentation fault"
    | some nd => Except.ok nd.value

/-- `node_type::operator*` (src/binary_tree.hpp:600-605): same null check
and error as iterator dereference, on the handle's held node. -/
def nodeTypeStar (h : Heap) (node : Option Nat) : Except String Int :=
  match node with
  | none => Except.error "segmentation fault"
  | some a =>
    match hLookup h a with
    | none => Except.error "segmentation fault"
    | some nd => Except.ok nd.value

/-- `node_type::value()` (src/binary_tree.hpp:620-625): same null check and
error as the dereference operators. -/
def nodeTypeValue (h : Heap) (node : Option Nat) : Except String Int :=
  match node with
  | none => Except.error "segmentation fault"
  | some a =>
    match hLookup h a with
    | none => Except.error "segmentation fault"
    | some nd => Except.ok nd.value

/-- C6: dereferencing the null end-sentinel position of an iterator, or an
empty node handle (via `*` or `value()`), yields a runtime error rather
than a value, while dereferencing a live non-null position yields the
stored value without error. -/
theorem deref_null_errors_live_succeeds (h : Heap) (a : Nat) (nd : Node)
    (hnd : hLookup h a = some nd) :
    constIterDeref h none = Except.error "segmentation fault" ∧
    nodeTypeStar h none = Except.error "segmentation fault" ∧
    nodeTypeValue h none = Except.error "segmentation fault" ∧
    constIterDeref h (some a) = Except.ok nd.value ∧
    nodeTypeStar h (some a) = Except.ok nd.value ∧
    nodeTypeValue h (some a) = Except.ok nd.value := by
  refine ⟨rfl, rfl, rfl, ?_, ?_, ?_⟩
  · simp only [constIterDeref, hnd]
  · simp only [nodeTypeStar, hnd]
  · simp only [nodeTypeValue, hnd]

/-- Witness for `deref_null_errors_live_succeeds`: on a one-node heap the
null position errors and the live position returns 5. -/
theorem deref_null_errors_live_succeeds_witness :
    constIterDeref [(0, ⟨5, none, none, none, 0⟩)] none
        = Except.error "segmentation fault" ∧
    constIterDeref [(0, ⟨5, none, none, none, 0⟩)] (some 0) = Except.ok 5 :=
  ⟨(deref_null_errors_live_succeeds [(0, ⟨5, none, none, none, 0⟩)] 0
      ⟨5, none, none, none, 0⟩ rfl).1,
   (deref_null_errors_live_succeeds [(0, ⟨5, none, none, none, 0⟩)] 0
      ⟨5, none, none, none, 0⟩ rfl).2.2.2.1⟩

/-- `_Node::operator==` (src/binary_tree.hpp:114): the defaulted memberwise
comparison — value, the raw parent/left/right pointer values, and height. -/
def nodeEqDefault (a b : Node) : Bool :=
  a.value == b.value && a.parent == b.parent && a.left == b.left &&
    a.right == b.right && a.height == b.height

/-- `binary_tree::operator==` (src/binary_tree.hpp:689): the defaulted
memberwise comparison of the tree object's members — the raw `root` pointer
and the `sz` counter (the two allocator members are stateless and always
compare equal; the heap is ambient memory, not a member). -/
def treeEqDefault (t1 t2 : TreeState) : Bool :=
  t1.root == t2.root && t1.sz == t2.sz

/-- Node-by-node structural equality of two pointer trees: same shape and,
position by position, equal values and heights.  This is the relation the
claim says `operator==` computes; it is defined here only to be compared
against `treeEqDefault`. -/
def structEqNodes (h1 h2 : Heap) : Nat → Option Nat → Option Nat → Bool
  | _, none, none => true
  | Nat.succ fuel, some a, some b =>
    match hLookup h1 a, hLookup h2 b with
    | some na, some nb =>
      na.value == nb.value && na.height == nb.height &&
        structEqNodes h1 h2 fuel na.left nb.left &&
        structEqNodes h1 h2 fuel na.right nb.right
    | _, _ => false
  | _, _, _ => false

/-- C8 counterexample: two trees over the same heap whose roots are two
distinct addresses holding identical leaf nodes of value 5.  Node by node
the two trees are structurally identical, yet the defaulted `operator==`
compares the raw root pointers and reports them unequal — tree equality is
pointer identity, not node-by-node structure. -/
theorem treeEq_not_structural :
    (structEqNodes
        [(0, ⟨5, none, none, none, 0⟩), (1, ⟨5, none, none, none, 0⟩)]
        [(0, ⟨5, none, none, none, 0⟩), (1, ⟨5, none, none, none, 0⟩)]
        5 (some 0) (some 1) = true) ∧
    (treeEqDefault
        ⟨[(0, ⟨5, none, none, none, 0⟩), (1, ⟨5, none, none, none, 0⟩)], some 0, 1⟩
        ⟨[(0, ⟨5, none, none, none, 0⟩), (1, ⟨5, none, none, none, 0⟩)], some 1, 1⟩
      = false) := by decide

/-- C8 amended: `operator==` on trees is the defaulted memberwise
comparison — it holds exactly when the two objects store the same raw root
pointer and the same size — and `operator==` on nodes is the defaulted
memberwise comparison of all five fields, the parent/left/right pointers
compared by address value.  In particular two trees with identical
node-by-node structure at distinct addresses compare unequal, and two trees
with the same elements in different shapes compare unequal. -/
theorem treeEqDefault_is_memberwise (t1 t2 : TreeState) (a b : Node) :
    (treeEqDefault t1 t2 = true ↔ (t1.root = t2.root ∧ t1.sz = t2.sz)) ∧
    (nodeEqDefault a b = true ↔ a = b) := by
  constructor
  · simp [treeEqDefault]
  · cases a
    cases b
    simp only [nodeEqDefault, Bool.and_eq_true, beq_iff_eq, Node.mk.injEq]
    tauto

/-- `node_type` (src/binary_tree.hpp:484-635): the handle's sole data
member, the held node pointer (its allocator member is stateless). -/
structure NodeHandle where
  node : Option Nat
  deriving DecidableEq

/-- `node_type::empty()` (src/binary_tree.hpp:618): true iff no node is
held. -/
def NodeHandle.isEmptyHandle (nh : NodeHandle) : Bool := nh.node == none

/-- `node_type::node_type(node_type&&)` (src/binary_tree.hpp:532-543):
returns (new handle, moved-from handle); an empty source yields an empty
handle and is left as it was (already empty), otherwise the held pointer is
transferred and the source's pointer is nulled. -/
def nodeTypeMoveCtor (other : NodeHandle) : NodeHandle × NodeHandle :=
  match other.node with
  | none => (⟨none⟩, other)
  | some a => (⟨some a⟩, ⟨none⟩)

/-- `node_type::operator=(node_type&&)` (src/binary_tree.hpp:567-577):
first `_destroy()`s the destination's held node (deallocating it from the
heap), then unconditionally takes the source's pointer and nulls the
source.  Returns (heap, new destination, moved-from source). -/
def nodeTypeMoveAssign (h : Heap) (dest other : NodeHandle) :
    Heap × NodeHandle × NodeHandle :=
  let h1 : Heap :=
    match dest.node with
    | none => h
    | some a => hRemove h a
  (h1, ⟨other.node⟩, ⟨none⟩)

/-- C9: move construction and move assignment from a node handle transfer
the held node to the destination (the destination holds exactly the node
the source previously held) and leave the source handle empty. -/
theorem nodeType_move_transfers (h : Heap) (dest other : NodeHandle) :
    ((nodeTypeMoveCtor other).1.node = other.node ∧
     (nodeTypeMoveCtor other).2.isEmptyHandle = true) ∧
    ((nodeTypeMoveAssign h dest other).2.1.node = other.node ∧
     (nodeTypeMoveAssign h dest other).2.2.isEmptyHandle = true) := by
  obtain ⟨n⟩ := other
  cases n <;>
    simp [nodeTypeMoveCtor, nodeTypeMoveAssign, NodeHandle.isEmptyHandle]

/-- Modelled from the spec: the repository only declares
`const_iterator::operator++/operator--` and their `iterator` counterparts
(src/binary_tree.hpp:270-276, 361-367) without bodies in the shipped
sources, so the traversal itself is taken from the spec's description.  A
tree is the inductive shape of the pointer structure. -/
inductive BTree where
  | leaf : BTree
  | node : BTree → Int → BTree → BTree
  deriving DecidableEq

/-- An iterator position is the path of left (`false`) / right (`true`)
steps from the root to the wrapped node; the parent pointer of the C++ node
corresponds to dropping the last step.  `subtreeAt` resolves a path to the
subtree rooted at it. -/
def subtreeAt : BTree → List Bool → Option BTree
  | t, [] => some t
  | BTree.leaf, _ :: _ => none
  | BTree.node l _ _, false :: ds => subtreeAt l ds
  | BTree.node _ _ r, true :: ds => subtreeAt r ds

/-- Path to the leftmost descendant of a tree: keep stepping left while a
left child exists. -/
def leftmostPath : BTree → List Bool
  | BTree.leaf => []
  | BTree.node BTree.leaf _ _ => []
  | BTree.node (BTree.node a v b) _ _ => false :: leftmostPath (BTree.node a v b)

/-- Path to the rightmost descendant of a tree: keep stepping right while a
right child exists. -/
def rightmostPath : BTree → List Bool
  | BTree.leaf => []
  | BTree.node _ _ BTree.leaf => []
  | BTree.node _ _ (BTree.node a v b) => true :: rightmostPath (BTree.node a v b)

/-- Modelled from the spec: ascend via the parent link until the current
node is the left child of its parent and return that parent, or the end
sentinel if no such ancestor exists.  The argument is the reversed path
(innermost step first), so each list step is one move to the parent. -/
def ascendAsLeftChild : List Bool → Option (List Bool)
  | [] => none
  | false :: rest => some rest.reverse
  | true :: rest => ascendAsLeftChild rest

/-- Modelled from the spec: ascend via the parent link until the current
node is the right child of its parent and return that parent, or the end
sentinel if no such ancestor exists. -/
def ascendAsRightChild : List Bool → Option (List Bool)
  | [] => none
  | true :: rest => some rest.reverse
  | false :: rest => ascendAsRightChild rest

/-- Modelled from the spec: `successor()` — if a right child exists,
descend to the leftmost descendant of the right subtree; otherwise ascend
via parent links until arriving as a left child and return that ancestor,
or the end sentinel if none exists. -/
def inorderSucc (t : BTree) (p : List Bool) : Option (List Bool) :=
  match subtreeAt t p with
  | some (BTree.node _ _ (BTree.node rl rv rr)) =>
    some (p ++ true :: leftmostPath (BTree.node rl rv rr))
  | some (BTree.node _ _ BTree.leaf) => ascendAsLeftChild p.reverse
  | _ => none

/-- Modelled from the spec: `predecessor()` — symmetric to `successor()`,
using the rightmost descendant of the left subtree, else ascending until
arriving as a right child. -/
def inorderPred (t : BTree) (p : List Bool) : Option (List Bool) :=
  match subtreeAt t p with
  | some (BTree.node (BTree.node ll lv lr) _ _) =>
    some (p ++ false :: rightmostPath (BTree.node ll lv lr))
  | some (BTree.node BTree.leaf _ _) => ascendAsRightChild p.reverse
  | _ => none

example : inorderSucc (BTree.node (BTree.node BTree.leaf 1 BTree.leaf) 2
    (BTree.node BTree.leaf 3 BTree.leaf)) [] = some [true] := by decide

example : inorderSucc (BTree.node (BTree.node BTree.leaf 1 BTree.leaf) 2
    (BTree.node BTree.leaf 3 BTree.leaf)) [false] = some [] := by decide

example : inorderSucc (BTree.node (BTree.node BTree.leaf 1 BTree.leaf) 2
    (BTree.node BTree.leaf 3 BTree.leaf)) [true] = none := by decide

example : inorderPred (BTree.node (BTree.node BTree.leaf 1 BTree.leaf) 2
    (BTree.node BTree.leaf 3 BTree.leaf)) [true] = some [] := by decide

example : inorderPred (BTree.node (BTree.node BTree.leaf 1 BTree.leaf) 2
    (BTree.node BTree.leaf 3 BTree.leaf)) [false] = none := by decide

theorem subtreeAt_append (p : List Bool) (t : BTree) (q : List Bool) :
    subtreeAt t (p ++ q) = (subtreeAt t p).bind (fun s => subtreeAt s q) := by
  induction p generalizing t with
  | nil => simp [subtreeAt]
  | cons d ds ih =>
    cases t with
    | leaf => simp [subtreeAt]
    | node l v r => cases d <;> simp [subtreeAt, ih]

theorem leftmostPath_all_false (t : BTree) : ∀ x ∈ leftmostPath t, x = false := by
  induction t with
  | leaf => simp [leftmostPath]
  | node l v r ihl ihr =>
    cases l with
    | leaf => simp [leftmostPath]
    | node a b c =>
      intro x hx
      rw [leftmostPath, List.mem_cons] at hx
      rcases hx with h | h
      · exact h
      · exact ihl x h

theorem rightmostPath_all_true (t : BTree) : ∀ x ∈ rightmostPath t, x = true := by
  induction t with
  | leaf => simp [rightmostPath]
  | node l v r ihl ihr =>
    cases r with
    | leaf => simp [rightmostPath]
    | node a b c =>
      intro x hx
      rw [rightmostPath, List.mem_cons] at hx
      rcases hx with h | h
      · exact h
      · exact ihr x h

theorem leftmost_spec (t : BTree) (ht : t ≠ BTree.leaf) :
    ∃ v2 r2, subtreeAt t (leftmostPath t) = some (BTree.node BTree.leaf v2 r2) := by
  induction t with
  | leaf => exact absurd rfl ht
  | node l v r ihl ihr =>
    cases l with
    | leaf => exact ⟨v, r, rfl⟩
    | node a b c =>
      obtain ⟨v2, r2, hh⟩ := ihl (by simp)
      exact ⟨v2, r2, by simp [leftmostPath, subtreeAt, hh]⟩

theorem rightmost_spec (t : BTree) (ht : t ≠ BTree.leaf) :
    ∃ l2 v2, subtreeAt t (rightmostPath t) = some (BTree.node l2 v2 BTree.leaf) := by
  induction t with
  | leaf => exact absurd rfl ht
  | node l v r ihl ihr =>
    cases r with
    | leaf => exact ⟨l, v, rfl⟩
    | node a b c =>
      obtain ⟨l2, v2, hh⟩ := ihr (by simp)
      exact ⟨l2, v2, by simp [rightmostPath, subtreeAt, hh]⟩

theorem ascendAsRightChild_append_falses (L rest : List Bool)
    (hL : ∀ x ∈ L, x = false) :
    ascendAsRightChild (L ++ true :: rest) = some rest.reverse := by
  induction L with
  | nil => simp [ascendAsRightChild]
  | cons x xs ih =>
    have hx : x = false := hL x (by simp)
    subst hx
    rw [List.cons_append, ascendAsRightChild]
    exact ih (fun y hy => hL y (by simp [hy]))

theorem ascendAsLeftChild_append_trues (L rest : List Bool)
    (hL : ∀ x ∈ L, x = true) :
    ascendAsLeftChild (L ++ false :: rest) = some rest.reverse := by
  induction L with
  | nil => simp [ascendAsLeftChild]
  | cons x xs ih =>
    have hx : x = true := hL x (by simp)
    subst hx
    rw [List.cons_append, ascendAsLeftChild]
    exact ih (fun y hy => hL y (by simp [hy]))

theorem ascendAsLeftChild_shape (l q : List Bool)
    (h : ascendAsLeftChild l = some q) :
    ∃ k, l = List.replicate k true ++ false :: q.reverse := by
  induction l with
  | nil => cases h
  | cons x xs ih =>
    cases x with
    | false =>
      rw [ascendAsLeftChild] at h
      have hq : q = xs.reverse := by cases h; rfl
      exact ⟨0, by simp [hq]⟩
    | true =>
      rw [ascendAsLeftChild] at h
      obtain ⟨k, hk⟩ := ih h
      exact ⟨k + 1, by simp [List.replicate_succ, hk]⟩

theorem ascendAsRightChild_shape (l q : List Bool)
    (h : ascendAsRightChild l = some q) :
    ∃ k, l = List.replicate k false ++ true :: q.reverse := by
  induction l with
  | nil => cases h
  | cons x xs ih =>
    cases x with
    | true =>
      rw [ascendAsRightChild] at h
      have hq : q = xs.reverse := by cases h; rfl
      exact ⟨0, by simp [hq]⟩
    | false =>
      rw [ascendAsRightChild] at h
      obtain ⟨k, hk⟩ := ih h
      exact ⟨k + 1, by simp [List.replicate_succ, hk]⟩

theorem rightmostPath_of_spine (k : Nat) (s l2 : BTree) (v2 : Int)
    (h : subtreeAt s (List.replicate k true) = some (BTree.node l2 v2 BTree.leaf)) :
    rightmostPath s = List.replicate k true := by
  induction k generalizing s with
  | zero =>
    simp only [List.replicate, subtreeAt, Option.some.injEq] at h
    subst h
    rfl
  | succ k ih =>
    cases s with
    | leaf => simp [List.replicate_succ, subtreeAt] at h
    | node a b c =>
      rw [List.replicate_succ] at h
      simp only [subtreeAt] at h
      cases c with
      | leaf =>
        cases k with
        | zero => simp [List.replicate, subtreeAt] at h
        | succ k2 => simp [List.replicate_succ, subtreeAt] at h
      | node ca cb cc =>
        rw [rightmostPath, ih _ h, List.replicate_succ]

theorem leftmostPath_of_spine (k : Nat) (s r2 : BTree) (v2 : Int)
    (h : subtreeAt s (List.replicate k false) = some (BTree.node BTree.leaf v2 r2)) :
    leftmostPath s = List.replicate k false := by
  induction k generalizing s with
  | zero =>
    simp only [List.replicate, subtreeAt, Option.some.injEq] at h
    subst h
    rfl
  | succ k ih =>
    cases s with
    | leaf => simp [List.replicate_succ, subtreeAt] at h
    | node a b c =>
      rw [List.replicate_succ] at h
      simp only [subtreeAt] at h
      cases a with
      | leaf =>
        cases k with
        | zero => simp [List.replicate, subtreeAt] at h
        | succ k2 => simp [List.replicate_succ, subtreeAt] at h
      | node ca cb cc =>
        rw [leftmostPath, ih _ h, List.replicate_succ]

/-- C7: for an iterator at any valid non-end position, `successor()`
followed by `predecessor()` returns to the original position, and
symmetrically `predecessor()` followed by `successor()` does; at the
sequence boundaries the first move yields the end sentinel and the
implications are vacuous.  Modelled from the spec, since the iterator
step operators are only declared in the shipped sources. -/
theorem inorder_succ_pred_roundtrip (t : BTree) (p : List Bool)
    (l : BTree) (v : Int) (r : BTree)
    (hpos : subtreeAt t p = some (BTree.node l v r)) :
    (∀ q, inorderSucc t p = some q → inorderPred t q = some p) ∧
    (∀ q, inorderPred t p = some q → inorderSucc t q = some p) := by
  constructor
  · intro q hq
    cases r with
    | node rl rv rr =>
      simp only [inorderSucc, hpos] at hq
      have hq2 : q = p ++ true :: leftmostPath (BTree.node rl rv rr) :=
        (Option.some.inj hq).symm
      subst hq2
      obtain ⟨v2, r2, hsub⟩ := leftmost_spec (BTree.node rl rv rr) (by simp)
      have hq_sub : subtreeAt t (p ++ true :: leftmostPath (BTree.node rl rv rr))
          = some (BTree.node BTree.leaf v2 r2) := by
        rw [subtreeAt_append, hpos]
        simp [subtreeAt, hsub]
      simp only [inorderPred, hq_sub]
      have hfa : ∀ x ∈ (leftmostPath (BTree.node rl rv rr)).reverse, x = false :=
        fun x hx => leftmostPath_all_false _ x (List.mem_reverse.mp hx)
      rw [List.reverse_append, List.reverse_cons, List.append_assoc,
        List.singleton_append, ascendAsRightChild_append_falses _ _ hfa,
        List.reverse_reverse]
    | leaf =>
      simp only [inorderSucc, hpos] at hq
      obtain ⟨k, hk⟩ := ascendAsLeftChild_shape p.reverse q hq
      have hp : p = q ++ false :: List.replicate k true := by
        have h2 := congrArg List.reverse hk
        simpa [List.reverse_append, List.reverse_cons, List.reverse_reverse,
          List.reverse_replicate, List.append_assoc] using h2
      subst hp
      rw [subtreeAt_append] at hpos
      cases hsq : subtreeAt t q with
      | none => rw [hsq] at hpos; simp at hpos
      | some s =>
        rw [hsq] at hpos
        have hpos2 : subtreeAt s (false :: List.replicate k true)
            = some (BTree.node l v BTree.leaf) := hpos
        cases s with
        | leaf => simp [subtreeAt] at hpos2
        | node a b c =>
          have hpos3 : subtreeAt a (List.replicate k true)
              = some (BTree.node l v BTree.leaf) := hpos2
          cases a with
          | leaf =>
            cases k with
            | zero => simp [List.replicate, subtreeAt] at hpos3
            | succ k2 => simp [List.replicate_succ, subtreeAt] at hpos3
          | node aa ab ac =>
            simp only [inorderPred, hsq]
            rw [rightmostPath_of_spine k (BTree.node aa ab ac) l v hpos3]
  · intro q hq
    cases l with
    | node ll lv lr =>
      simp only [inorderPred, hpos] at hq
      have hq2 : q = p ++ false :: rightmostPath (BTree.node ll lv lr) :=
        (Option.some.inj hq).symm
      subst hq2
      obtain ⟨l2, v2, hsub⟩ := rightmost_spec (BTree.node ll lv lr) (by simp)
      have hq_sub : subtreeAt t (p ++ false :: rightmostPath (BTree.node ll lv lr))
          = some (BTree.node l2 v2 BTree.leaf) := by
        rw [subtreeAt_append, hpos]
        simp [subtreeAt, hsub]
      simp only [inorderSucc, hq_sub]
      have hta : ∀ x ∈ (rightmostPath (BTree.node ll lv lr)).reverse, x = true :=
        fun x hx => rightmostPath_all_true _ x (List.mem_reverse.mp hx)
      rw [List.reverse_append, List.reverse_cons, List.append_assoc,
        List.singleton_append, ascendAsLeftChild_append_trues _ _ hta,
        List.reverse_reverse]
    | leaf =>
      simp only [inorderPred, hpos] at hq
      obtain ⟨k, hk⟩ := ascendAsRightChild_shape p.reverse q hq
      have hp : p = q ++ true :: List.replicate k false := by
        have h2 := congrArg List.reverse hk
        simpa [List.reverse_append, List.reverse_cons, List.reverse_reverse,
          List.reverse_replicate, List.append_assoc] using h2
      subst hp
      rw [subtreeAt_append] at hpos
      cases hsq : subtreeAt t q with
      | none => rw [hsq] at hpos; simp at hpos
      | some s =>
        rw [hsq] at hpos
        have hpos2 : subtreeAt s (true :: List.replicate k false)
            = some (BTree.node BTree.leaf v r) := hpos
        cases s with
        | leaf => simp [subtreeAt] at hpos2
        | node a b c =>
          have hpos3 : subtreeAt c (List.replicate k false)
              = some (BTree.node BTree.leaf v r) := hpos2
          cases c with
          | leaf =>
            cases k with
            | zero => simp [List.replicate, subtreeAt] at hpos3
            | succ k2 => simp [List.replicate_succ, subtreeAt] at hpos3
          | node ca cb cc =>
            simp only [inorderSucc, hsq]
            rw [leftmostPath_of_spine k (BTree.node ca cb cc) r v hpos3]

/-- Witness for `inorder_succ_pred_roundtrip`: in the tree 2 with children
1 and 3, the successor of the root is the right child, whose predecessor is
the root again. -/
theorem inorder_succ_pred_roundtrip_witness :
    inorderPred (BTree.node (BTree.node BTree.leaf 1 BTree.leaf) 2
      (BTree.node BTree.leaf 3 BTree.leaf)) [true] = some [] :=
  (inorder_succ_pred_roundtrip
      (BTree.node (BTree.node BTree.leaf 1 BTree.leaf) 2
        (BTree.node BTree.leaf 3 BTree.leaf)) []
      (BTree.node BTree.leaf 1 BTree.leaf) 2
      (BTree.node BTree.leaf 3 BTree.leaf) rfl).1 [true] (by decide)
